import Mathlib

/-!
Verification of the certgraph crawler core against its specification.

The Go sources are shallowly embedded: byte slices become `List Nat` with
explicit `< 256` bounds, Go strings become `String` (manipulated through
their `List Char` data), Go maps become association lists with a
nodup-keys discipline, and the concurrent BFS engine becomes a labelled
transition system over explicit task lists.
-/

namespace Certgraph

/-! ## String helpers (graph/misc.go, strings.ToLower, strings.HasSuffix) -/

/-- Model of Go byte-wise string comparison (`a < b` on strings, as used by
`sort.Strings`).  UTF-8 byte order and code-point order coincide, so we
compare the code points of the characters. -/
def strLtb : List Char → List Char → Bool
  | [], [] => false
  | [], _ :: _ => true
  | _ :: _, [] => false
  | a :: as, b :: bs =>
    if a.toNat < b.toNat then true
    else if b.toNat < a.toNat then false
    else strLtb as bs

/-- ASCII-ascending less-or-equal on strings, `a <= b` in Go. -/
def strLeb (a b : String) : Bool := !(strLtb b.data a.data)

/-- Model of `strings.ToLower` on a single character; Go lowercases the
ASCII letters `A`-`Z` (the domain names handled by certgraph are ASCII). -/
def goCharToLower (c : Char) : Char :=
  if 65 ≤ c.toNat ∧ c.toNat ≤ 90 then Char.ofNat (c.toNat + 32) else c

/-- Model of `strings.ToLower`. -/
def goToLower (s : String) : String := ⟨s.data.map goCharToLower⟩

/-- Model of `strings.TrimPrefix(domain, "*.")`, the body of
`graph.nonWildcard` (graph/misc.go): drop a single leading `*.` if present. -/
def nonWildcard (s : String) : String :=
  match s.data with
  | '*' :: '.' :: rest => ⟨rest⟩
  | _ => s

/-- True iff the string still begins with the literal `*.` prefix. -/
def startsWithWildcard (s : String) : Bool :=
  match s.data with
  | '*' :: '.' :: _ => true
  | _ => false

/-- Model of `strings.HasSuffix(s, suffix)`. -/
def goHasSuffix (s suffix : String) : Bool := suffix.data.isSuffixOf s.data

/-! ## Fingerprint (package fingerprint): 32-byte SHA-256 value with
hex and base64 codecs.  Bytes are `Nat` with an explicit `< 256` bound. -/
/-- A fingerprint value: the 32 bytes of `[sha256.Size]byte`.  Length and
byte bounds travel as hypotheses. -/
abbrev Fp := List Nat

/-- Uppercase hexadecimal digit, as produced by the `%X` format verb. -/
def hexDigitUpper (d : Nat) : Char := "0123456789ABCDEF".data.getD d ' '

/-- Model of `fmt.Sprintf("%X", fp)`: two uppercase hex digits per byte. -/
def HexString : List Nat → List Char
  | [] => []
  | b :: rest => hexDigitUpper (b / 16) :: hexDigitUpper (b % 16) :: HexString rest

/-- One hex digit accepted by `hex.DecodeString` (either case). -/
def decodeHexDigit (c : Char) : Option Nat :=
  if 48 ≤ c.toNat ∧ c.toNat ≤ 57 then some (c.toNat - 48)
  else if 97 ≤ c.toNat ∧ c.toNat ≤ 102 then some (c.toNat - 87)
  else if 65 ≤ c.toNat ∧ c.toNat ≤ 70 then some (c.toNat - 55)
  else none

/-- Model of `hex.DecodeString`: pairs of digits, failing on odd length or
on a character outside the hex alphabet. -/
def decodeHex : List Char → Option (List Nat)
  | [] => some []
  | c1 :: c2 :: rest =>
    match decodeHexDigit c1, decodeHexDigit c2, decodeHex rest with
    | some d1, some d2, some bs => some ((d1 * 16 + d2) :: bs)
    | _, _, _ => none
  | _ => none

/-- Model of `fingerprint.FromHashBytes`: copy up to 32 bytes from the
input, leaving the remaining bytes of the array zero. -/
def FromHashBytes (data : List Nat) : List Nat :=
  data.take 32 ++ List.replicate (32 - data.length) 0

/-- Model of `fingerprint.FromHexHash`. -/
def FromHexHash (s : List Char) : Option (List Nat) :=
  (decodeHex s).map FromHashBytes

/-- The standard base64 alphabet used by `base64.StdEncoding`. -/
def b64Alphabet : List Char :=
  "ABCDEFGHIJKLMNOPQRSTUVWXYZabcdefghijklmnopqrstuvwxyz0123456789+/".data

/-- Character for a six-bit group. -/
def b64Char (n : Nat) : Char := b64Alphabet.getD n '='

/-- Decoding table of `base64.StdEncoding`: position of the character in
the alphabet, as Go builds its `decodeMap` from the encoder string. -/
def decodeB64Char (c : Char) : Option Nat :=
  let i := b64Alphabet.findIdx (fun x => x == c)
  if i < 64 then some i else none

/-- Model of `base64.StdEncoding.EncodeToString` (`Fingerprint.B64Encode`):
three bytes become four characters; a final group of one or two bytes is
padded with `=`. -/
def B64Encode : List Nat → List Char
  | [] => []
  | [a] => [b64Char (a / 4), b64Char (a % 4 * 16), '=', '=']
  | [a, b] => [b64Char (a / 4), b64Char (a % 4 * 16 + b / 16), b64Char (b % 16 * 4), '=']
  | a :: b :: c :: rest =>
    b64Char (a / 4) :: b64Char (a % 4 * 16 + b / 16) ::
      b64Char (b % 16 * 4 + c / 64) :: b64Char (c % 64) :: B64Encode rest

/-- Model of `base64.StdEncoding.DecodeString`: four characters at a time,
with the two padded final-quantum shapes. -/
def b64Decode : List Char → Option (List Nat)
  | [] => some []
  | c1 :: c2 :: c3 :: c4 :: rest =>
    if c3 = '=' ∧ c4 = '=' ∧ rest = [] then
      match decodeB64Char c1, decodeB64Char c2 with
      | some s1, some s2 => some [s1 * 4 + s2 / 16]
      | _, _ => none
    else if c4 = '=' ∧ rest = [] then
      match decodeB64Char c1, decodeB64Char c2, decodeB64Char c3 with
      | some s1, some s2, some s3 => some [s1 * 4 + s2 / 16, s2 % 16 * 16 + s3 / 4]
      | _, _, _ => none
    else
      match decodeB64Char c1, decodeB64Char c2, decodeB64Char c3, decodeB64Char c4,
          b64Decode rest with
      | some s1, some s2, some s3, some s4, some bs =>
        some ((s1 * 4 + s2 / 16) :: (s2 % 16 * 16 + s3 / 4) :: (s3 % 4 * 64 + s4) :: bs)
      | _, _, _, _, _ => none
  | _ => none

/-- Model of `fingerprint.FromB64Hash`. -/
def FromB64Hash (s : List Char) : Option (List Nat) :=
  (b64Decode s).map FromHashBytes

/-! ## Association-list machinery for Go maps.

A Go `map[K]V` is embedded as a `List (K × V)` with pairwise-distinct
keys; `aset`, `alookup` and `adelete` model assignment, indexing and
`delete`. -/
/-- Go map indexing `m[k]` (the `ok` of the two-value form is `isSome`). -/
def alookup {α β : Type} [DecidableEq α] (m : List (α × β)) (k : α) : Option β :=
  match m with
  | [] => none
  | (k0, v0) :: rest => if k0 = k then some v0 else alookup rest k

/-- Go map assignment `m[k] = v`: overwrite the binding if the key is
present, otherwise add it. -/
def aset {α β : Type} [DecidableEq α] (m : List (α × β)) (k : α) (v : β) : List (α × β) :=
  match m with
  | [] => [(k, v)]
  | (k0, v0) :: rest => if k0 = k then (k, v) :: rest else (k0, v0) :: aset rest k v

/-- Go `delete(m, k)`. -/
def adelete {α β : Type} [DecidableEq α] (m : List (α × β)) (k : α) : List (α × β) :=
  match m with
  | [] => []
  | (k0, v0) :: rest => if k0 = k then rest else (k0, v0) :: adelete rest k

/-! ## Status (package status) -/
/-- The `DomainStatus` enumeration. -/
inductive DomainStatus
  | unknown
  | good
  | timeout
  | noHost
  | refusedConn
  | errored
  | redirect
  | ct
  | multi
deriving DecidableEq, Repr

/-- The `status.Status` record: a `DomainStatus` plus optional metadata. -/
structure Status where
  status : DomainStatus
  meta : String
deriving DecidableEq, Repr

/-- Go zero value of `status.Status` (`UNKNOWN` with empty meta). -/
def statusZero : Status := ⟨.unknown, ""⟩

/-- Model of `status.New`. -/
def statusNew (d : DomainStatus) : Status := ⟨d, ""⟩

/-! ## DomainNode (graph/domain_node.go) -/
/-- The `graph.DomainNode` structure. -/
structure DomainNode where
  domain : String
  depth : Nat
  certs : List (Fp × List String)
  relatedDomains : List (String × Status)
  status : Status
  root : Bool
  hasDNS : Bool
deriving DecidableEq, Repr

/-- Model of `graph.NewDomainNode`: lowercase the domain and strip one
wildcard prefix; everything else starts at the Go zero value. -/
def NewDomainNode (domain : String) (depth : Nat) : DomainNode :=
  { domain := nonWildcard (goToLower domain)
    depth := depth
    certs := []
    relatedDomains := []
    status := statusZero
    root := false
    hasDNS := false }

/-- Model of `DomainNode.AddStatusMap`: if the map holds a status for the
node's own domain, take it over and delete it from the map (a destructive
side effect modelled by returning the updated map); merge every remaining
binding into `relatedDomains`, overwriting. -/
def AddStatusMap (d : DomainNode) (m : List (String × Status)) :
    DomainNode × List (String × Status) :=
  let step :=
    match alookup m d.domain with
    | some st => ({ d with status := st }, adelete m d.domain)
    | none => (d, m)
  ({ step.1 with
      relatedDomains := step.2.foldl (fun acc p => aset acc p.1 p.2) step.1.relatedDomains },
    step.2)

/-! ## CertNode (graph/cert_node.go) and the graph (part of package graph) -/
/-- The `graph.CertNode` structure; `foundMap` is the driver-name set. -/
structure CertNode where
  fingerprint : Fp
  domains : List String
  foundMap : List (String × Bool)
deriving DecidableEq, Repr

/-- Model of `CertNode.CDNCert`: true iff any SAN carries one of the three
CDN suffixes. -/
def CDNCert (c : CertNode) : Bool :=
  c.domains.any (fun domain =>
    goHasSuffix domain ".cloudflaressl.com" || goHasSuffix domain "fastly.net" ||
      goHasSuffix domain ".akamai.net")

/-- Model of `CertNode.ApexCount`: the number of distinct apex domains
among the SANs, skipping SANs whose apex extraction fails.  The public
suffix list collaborator `dns.ApexDomain` is a parameter. -/
def ApexCount (apexDomain : String → Option String) (c : CertNode) : Nat :=
  ((c.domains.filterMap apexDomain).dedup).length

/-- The `graph.CertGraph` store: two maps, domains and certs. -/
structure CertGraph where
  domains : List (String × DomainNode)
  certs : List (Fp × CertNode)

/-- Loop body shared by the neighbor computation: mark every name of `l`
as a neighbor (`neighbors[name] = true`). -/
def insTrue (acc : List (String × Bool)) (l : List String) : List (String × Bool) :=
  l.foldl (fun a d => aset a d true) acc

/-- The skip condition of the claims: a certificate is skipped iff it is a
CDN cert while CDN certs are excluded, or the SANs cap is positive and its
apex count exceeds the cap. -/
def certSkip (apexDomain : String → Option String) (cdn : Bool) (maxSANsSize : Int)
    (cn : CertNode) : Bool :=
  (!cdn && CDNCert cn) ||
    (decide (0 < maxSANsSize) && decide ((ApexCount apexDomain cn : Int) > maxSANsSize))

/-- The certificate loop of `CertGraph.GetDomainNeighbors`: for every
fingerprint of the node, look the cert up in the graph; skip CDN certs
(unless `cdn`) and too-large certs (when the cap is positive), otherwise
mark every SAN of the cert. -/
def certNeighborsFold (apexDomain : String → Option String) (graph : CertGraph) (cdn : Bool)
    (maxSANsSize : Int) : List (String × Bool) → List (Fp × List String) → List (String × Bool)
  | acc, [] => acc
  | acc, p :: rest =>
    certNeighborsFold apexDomain graph cdn maxSANsSize
      (match alookup graph.certs p.1 with
       | some certNode =>
         if !cdn && CDNCert certNode then acc
         else if decide (0 < maxSANsSize) &&
             decide ((ApexCount apexDomain certNode : Int) > maxSANsSize) then acc
         else insTrue acc certNode.domains
       | none => acc) rest

/-- Model of `CertGraph.GetDomainNeighbors`: collect the related-domain
keys and the SANs of the non-skipped certificates into a boolean map,
force the source domain to `false`, and return the keys still `true`. -/
def GetDomainNeighbors (apexDomain : String → Option String) (graph : CertGraph)
    (domain : String) (cdn : Bool) (maxSANsSize : Int) : List String :=
  let domain := nonWildcard domain
  let neighbors :=
    match alookup graph.domains domain with
    | some domainNode =>
      certNeighborsFold apexDomain graph cdn maxSANsSize
        (insTrue [] (domainNode.relatedDomains.map Prod.fst)) domainNode.certs
    | none => []
  let neighbors2 := aset neighbors domain false
  (neighbors2.filter (fun p => p.2)).map Prod.fst

/-! ## BFS admission (certgraph.go, breathFirstSearch input loop) -/
/-- The engine configuration relevant to admission. -/
structure BfsConfig where
  maxDepth : Nat

/-- One iteration of the admission loop: drop candidates above the depth
limit, drop already-present domains, otherwise store the node keyed by
its (already normalized) domain. -/
def admitCandidate (cfg : BfsConfig) (domains : List (String × DomainNode))
    (cand : DomainNode) : List (String × DomainNode) :=
  if cand.depth > cfg.maxDepth then domains
  else
    match alookup domains cand.domain with
    | some _ => domains
    | none => aset domains cand.domain cand

/-- The whole admission stream: every candidate (seed or neighbor) enters
as `NewDomainNode name depth`. -/
def bfsAdmitAll (cfg : BfsConfig) (cands : List (String × Nat)) :
    List (String × DomainNode) :=
  cands.foldl (fun g c => admitCandidate cfg g (NewDomainNode c.1 c.2)) []

/-! ## Driver result shapes (driver/driver.go) -/
/-- The `driver.CertResult` record. -/
structure CertResult where
  fingerprint : Fp
  domains : List String
deriving DecidableEq, Repr

/-- Insertion step of a byte-wise ascending string sort (the behavior of
`sort.Strings`). -/
def insertSortedStr (x : String) : List String → List String
  | [] => [x]
  | y :: ys => if strLeb x y then x :: y :: ys else y :: insertSortedStr x ys

/-- Model of `sort.Strings`. -/
def sortStrings (l : List String) : List String := l.foldr insertSortedStr []

/-- Byte-wise ascending sortedness of a string list. -/
def SortedStr (l : List String) : Prop := l.Chain' (fun a b => strLeb a b = true)

/-- Model of `driver.NewCertResult` on a parsed certificate: the
fingerprint of the raw bytes (taken as a parameter, SHA-256 being
opaque), plus the lowercased, deduplicated, sorted union of the nonempty
Common Name and the nonempty DNS-Name SANs. -/
def NewCertResult (raw : Fp) (commonName : String) (dnsNames : List String) : CertResult :=
  let cn := goToLower commonName
  let candidates :=
    (if cn.length > 0 then [cn] else []) ++
      (dnsNames.filter (fun d => d.length > 0)).map goToLower
  { fingerprint := raw, domains := sortStrings candidates.dedup }

/-- Model of `certNodeFromCertResult` (certgraph.go): copy fingerprint and
domain list verbatim into a `graph.CertNode`. -/
def certNodeFromCertResult (cr : CertResult) : CertNode :=
  { fingerprint := cr.fingerprint, domains := cr.domains, foundMap := [] }

/-- Model of the domain-list construction of `crtsh.QueryCert`: append
every database row as it arrives, with no lowercasing and no sorting
(the SQL query has no ORDER BY). -/
def crtshQueryCertModel (fp : Fp) (rows : List String) : CertResult :=
  { fingerprint := fp, domains := rows.foldl (fun acc r => acc ++ [r]) [] }

/-! ## Multi-driver (driver/multi/multi_driver.go) -/
/-- Model of `multiResult.QueryCert`: probe the child results in order; a
child answering `(err, _)` aborts with that error, a child answering a
certificate returns it, a `(nil, nil)` child falls through; an exhausted
list is the not-found error.  A child result is a function from
fingerprint to the `(error, cert)` pair Go returns. -/
def multiQueryCert (results : List (Fp → Option String × Option CertResult)) (fp : Fp) :
    Option String × Option CertResult :=
  match results with
  | [] => (some "unable to find working driver with QueryCert()", none)
  | r :: rest =>
    match r fp with
    | (some e, _) => (some e, none)
    | (none, some cr) => (none, some cr)
    | (none, none) => multiQueryCert rest fp

/-- Model of `driver.FingerprintMap.Add`: `f[domain] = append(f[domain], fp)`. -/
def fpmAdd (f : List (String × List Fp)) (domain : String) (fp : Fp) :
    List (String × List Fp) :=
  aset f domain ((alookup f domain).getD [] ++ [fp])

/-- Model of `multiResult.add`: fold one child fingerprint map into the
accumulated merged map with `FingerprintMap.Add`. -/
def multiResultAdd (acc : List (String × List Fp)) (child : List (String × List Fp)) :
    List (String × List Fp) :=
  child.foldl (fun a p => p.2.foldl (fun a2 fp => fpmAdd a2 p.1 fp) a) acc

/-- The merged `Fingerprints()` view after all child results were added. -/
def multiFingerprints (children : List (List (String × List Fp))) : List (String × List Fp) :=
  children.foldl multiResultAdd []

/-! ## The per-fingerprint certificate pipeline of `visit` (certgraph.go)
as a labelled transition system.

Each task is one `(domainNode, fp)` pair flowing through `visit`: the
dispatch-loop existence check (`certGraph.GetCert`), the mutex-guarded
check-and-mark of `processedCerts`, the `results.QueryCert` call, the
`certGraph.AddCert` of the result, and the final relationship pass that
adds `AddCertFingerprint` edges for fingerprints present in the graph.
Tasks from different visits interleave arbitrarily; a fixed task list
with all tasks initially at `dispatch` subsumes dynamic spawning, since
a task has no effect before its first step. -/
/-- Program counter of one (domain, fingerprint) task. -/
inductive Pc
  | dispatch
  | acquire
  | query
  | addCert
  | edgeCheck
  | done
deriving DecidableEq, Repr

/-- One (domain, fingerprint) unit of certificate work inside a visit;
`answer` and `sans` are the reply `results.QueryCert` would give. -/
structure CertTask where
  domain : String
  fp : Fp
  answer : Bool
  sans : List String
  pc : Pc
deriving DecidableEq, Repr

/-- Shared state of the run: the mutex-guarded `processedCerts` set, the
graph's cert map, the recorded domain-to-cert edges, and the tasks. -/
structure RunState where
  processed : List Fp
  graphCerts : List (Fp × CertNode)
  edges : List (String × Fp)
  tasks : List CertTask

/-- Observable labels: a `QueryCert` driver call with its outcome, or an
internal step. -/
inductive RunLabel
  | tau
  | queryCall (fp : Fp) (ok : Bool)
deriving DecidableEq, Repr

/-- Interleaved small-step semantics of the certificate pipeline.  Every
constructor fires one atomic action of one task; the `processedCerts`
check-and-mark is a single step because the source holds
`processedCertsMutex` across it. -/
inductive Step : RunState → RunLabel → RunState → Prop
  | dispatchStep (proc : List Fp) (g : List (Fp × CertNode)) (e : List (String × Fp))
      (pre post : List CertTask) (d0 : String) (fp0 : Fp) (ans0 : Bool) (sans0 : List String) :
      Step ⟨proc, g, e, pre ++ ⟨d0, fp0, ans0, sans0, .dispatch⟩ :: post⟩ .tau
        ⟨proc, g, e, pre ++ ⟨d0, fp0, ans0, sans0,
          if (alookup g fp0).isSome then .edgeCheck else .acquire⟩ :: post⟩
  | acquireHit (proc : List Fp) (g : List (Fp × CertNode)) (e : List (String × Fp))
      (pre post : List CertTask) (d0 : String) (fp0 : Fp) (ans0 : Bool) (sans0 : List String)
      (hmem : fp0 ∈ proc) :
      Step ⟨proc, g, e, pre ++ ⟨d0, fp0, ans0, sans0, .acquire⟩ :: post⟩ .tau
        ⟨proc, g, e, pre ++ ⟨d0, fp0, ans0, sans0, .edgeCheck⟩ :: post⟩
  | acquireWin (proc : List Fp) (g : List (Fp × CertNode)) (e : List (String × Fp))
      (pre post : List CertTask) (d0 : String) (fp0 : Fp) (ans0 : Bool) (sans0 : List String)
      (hmem : fp0 ∉ proc) :
      Step ⟨proc, g, e, pre ++ ⟨d0, fp0, ans0, sans0, .acquire⟩ :: post⟩ .tau
        ⟨fp0 :: proc, g, e, pre ++ ⟨d0, fp0, ans0, sans0, .query⟩ :: post⟩
  | queryStep (proc : List Fp) (g : List (Fp × CertNode)) (e : List (String × Fp))
      (pre post : List CertTask) (d0 : String) (fp0 : Fp) (ans0 : Bool) (sans0 : List String) :
      Step ⟨proc, g, e, pre ++ ⟨d0, fp0, ans0, sans0, .query⟩ :: post⟩ (.queryCall fp0 ans0)
        ⟨proc, g, e, pre ++ ⟨d0, fp0, ans0, sans0,
          if ans0 then .addCert else .edgeCheck⟩ :: post⟩
  | addCertStep (proc : List Fp) (g : List (Fp × CertNode)) (e : List (String × Fp))
      (pre post : List CertTask) (d0 : String) (fp0 : Fp) (ans0 : Bool) (sans0 : List String) :
      Step ⟨proc, g, e, pre ++ ⟨d0, fp0, ans0, sans0, .addCert⟩ :: post⟩ .tau
        ⟨proc, aset g fp0 ⟨fp0, sans0, []⟩, e,
          pre ++ ⟨d0, fp0, ans0, sans0, .edgeCheck⟩ :: post⟩
  | edgeStep (proc : List Fp) (g : List (Fp × CertNode)) (e : List (String × Fp))
      (pre post : List CertTask) (d0 : String) (fp0 : Fp) (ans0 : Bool) (sans0 : List String) :
      Step ⟨proc, g, e, pre ++ ⟨d0, fp0, ans0, sans0, .edgeCheck⟩ :: post⟩ .tau
        ⟨proc, g, if (alookup g fp0).isSome then (d0, fp0) :: e else e,
          pre ++ ⟨d0, fp0, ans0, sans0, .done⟩ :: post⟩

/-- Multi-step reachability carrying the trace of labels. -/
inductive Reach : RunState → List RunLabel → RunState → Prop
  | refl (s : RunState) : Reach s [] s
  | step {s0 : RunState} {tr : List RunLabel} {s1 : RunState} {l : RunLabel} {s2 : RunState} :
      Reach s0 tr s1 → Step s1 l s2 → Reach s0 (tr ++ [l]) s2

/-- Number of `QueryCert` calls for fingerprint `F` in a trace. -/
def countQ (F : Fp) (tr : List RunLabel) : Nat :=
  tr.countP (fun l => match l with | .queryCall fp _ => fp == F | _ => false)

/-- Number of successful `QueryCert` calls for `F` in a trace. -/
def countQT (F : Fp) (tr : List RunLabel) : Nat :=
  tr.countP (fun l => match l with | .queryCall fp ok => fp == F && ok | _ => false)

/-- Number of failed `QueryCert` calls for `F` in a trace. -/
def countQF (F : Fp) (tr : List RunLabel) : Nat :=
  tr.countP (fun l => match l with | .queryCall fp ok => fp == F && !ok | _ => false)

/-- Tasks for `F` whose next action is the `QueryCert` call. -/
def nQuery (F : Fp) (s : RunState) : Nat :=
  s.tasks.countP (fun t => decide (t.fp = F ∧ t.pc = Pc.query))

/-- Tasks for `F` whose next action is `AddCert`. -/
def nAdd (F : Fp) (s : RunState) : Nat :=
  s.tasks.countP (fun t => decide (t.fp = F ∧ t.pc = Pc.addCert))

/-- Initial states of a run: empty shared state, all tasks at dispatch. -/
def Init (s : RunState) : Prop :=
  s.processed = [] ∧ s.graphCerts = [] ∧ s.edges = [] ∧ ∀ t ∈ s.tasks, t.pc = Pc.dispatch

/-- The run invariant for a fingerprint `F`: the mark-before-query
discipline bounds queries by the processed flag; `AddCert`s and graph
membership are covered by successful queries; an edge to `F` needs a
successful query. -/
def RunInv (F : Fp) (s : RunState) (tr : List RunLabel) : Prop :=
  countQ F tr + nQuery F s ≤ (if F ∈ s.processed then 1 else 0) ∧
  nAdd F s + (if (alookup s.graphCerts F).isSome then 1 else 0) ≤ countQT F tr ∧
  ((∃ d, (d, F) ∈ s.edges) → 1 ≤ countQT F tr)

theorem toNat_ofNat_valid {n : Nat} (h : n.isValidChar) : (Char.ofNat n).toNat = n := by
  simp only [Char.ofNat, dif_pos h, Char.ofNatAux, Char.toNat, UInt32.toNat]
  rfl

theorem goCharToLower_idem (c : Char) : goCharToLower (goCharToLower c) = goCharToLower c := by
  unfold goCharToLower
  by_cases h : 65 ≤ c.toNat ∧ c.toNat ≤ 90
  · rw [if_pos h]
    have hv : (c.toNat + 32).isValidChar := by
      left
      show c.toNat + 32 < 0xd800
      omega
    rw [if_neg]
    rw [toNat_ofNat_valid hv]
    omega
  · rw [if_neg h, if_neg h]

theorem goToLower_idem (s : String) : goToLower (goToLower s) = goToLower s := by
  unfold goToLower
  cases s with
  | mk data =>
    simp only [List.map_map]
    congr 1
    apply List.map_congr_left
    intro c _
    exact goCharToLower_idem c

theorem decodeHexDigit_hexDigitUpper : ∀ d : Fin 16, decodeHexDigit (hexDigitUpper d.val) = some d.val := by
  decide

theorem decodeHex_hexString (l : List Nat) (h : ∀ x ∈ l, x < 256) :
    decodeHex (HexString l) = some l := by
  induction l with
  | nil => rfl
  | cons b rest ih =>
    have hb : b < 256 := h b (by simp)
    have h1 := decodeHexDigit_hexDigitUpper ⟨b / 16, by omega⟩
    have h2 := decodeHexDigit_hexDigitUpper ⟨b % 16, by omega⟩
    have hrest := ih (fun x hx => h x (by simp [hx]))
    have hb' : b / 16 * 16 + b % 16 = b := by omega
    simp only [HexString, decodeHex, h1, h2, hrest, hb']

theorem decodeB64Char_b64Char : ∀ s : Fin 64, decodeB64Char (b64Char s.val) = some s.val := by
  decide

theorem b64Char_ne_pad : ∀ s : Fin 64, b64Char s.val ≠ '=' := by
  decide

theorem b64Decode_b64Encode (l : List Nat) (h : ∀ x ∈ l, x < 256) :
    b64Decode (B64Encode l) = some l := by
  induction l using B64Encode.induct with
  | case1 => rfl
  | case2 a =>
    have ha : a < 256 := h a (by simp)
    have h1 := decodeB64Char_b64Char ⟨a / 4, by omega⟩
    have h2 := decodeB64Char_b64Char ⟨a % 4 * 16, by omega⟩
    have hv : a / 4 * 4 + a % 4 * 16 / 16 = a := by omega
    simp only [B64Encode, b64Decode, h1, h2, hv]
    simp
  | case3 a b =>
    have ha : a < 256 := h a (by simp)
    have hb : b < 256 := h b (by simp)
    have h1 := decodeB64Char_b64Char ⟨a / 4, by omega⟩
    have h2 := decodeB64Char_b64Char ⟨a % 4 * 16 + b / 16, by omega⟩
    have h3 := decodeB64Char_b64Char ⟨b % 16 * 4, by omega⟩
    have hne : b64Char (b % 16 * 4) ≠ '=' := b64Char_ne_pad ⟨b % 16 * 4, by omega⟩
    have hv1 : a / 4 * 4 + (a % 4 * 16 + b / 16) / 16 = a := by omega
    have hv2 : (a % 4 * 16 + b / 16) % 16 * 16 + b % 16 * 4 / 4 = b := by omega
    simp only [B64Encode, b64Decode, h1, h2, h3, hv1, hv2]
    simp [hne]
  | case4 a b c rest ih =>
    have ha : a < 256 := h a (by simp)
    have hb : b < 256 := h b (by simp)
    have hc : c < 256 := h c (by simp)
    have h1 := decodeB64Char_b64Char ⟨a / 4, by omega⟩
    have h2 := decodeB64Char_b64Char ⟨a % 4 * 16 + b / 16, by omega⟩
    have h3 := decodeB64Char_b64Char ⟨b % 16 * 4 + c / 64, by omega⟩
    have h4 := decodeB64Char_b64Char ⟨c % 64, by omega⟩
    have hne3 : b64Char (b % 16 * 4 + c / 64) ≠ '=' := b64Char_ne_pad ⟨b % 16 * 4 + c / 64, by omega⟩
    have hne4 : b64Char (c % 64) ≠ '=' := b64Char_ne_pad ⟨c % 64, by omega⟩
    have hrest := ih (fun x hx => h x (by simp [hx]))
    have hv1 : a / 4 * 4 + (a % 4 * 16 + b / 16) / 16 = a := by omega
    have hv2 : (a % 4 * 16 + b / 16) % 16 * 16 + (b % 16 * 4 + c / 64) / 4 = b := by omega
    have hv3 : (b % 16 * 4 + c / 64) % 4 * 64 + c % 64 = c := by omega
    simp only [B64Encode, b64Decode, h1, h2, h3, h4, hrest, hv1, hv2, hv3]
    simp [hne3, hne4]

theorem fromHashBytes_of_length_32 (l : List Nat) (h : l.length = 32) : FromHashBytes l = l := by
  unfold FromHashBytes
  rw [h]
  simp [List.take_of_length_le (by omega : l.length ≤ 32)]

/-- C8: decoding the uppercase-hex rendering of a 32-byte fingerprint
returns it exactly, and likewise for the standard-base64 rendering. -/
theorem C8_fingerprint_codec_roundtrip (fp : List Nat) (hlen : fp.length = 32)
    (hbytes : ∀ x ∈ fp, x < 256) :
    FromHexHash (HexString fp) = some fp ∧ FromB64Hash (B64Encode fp) = some fp := by
  constructor
  · unfold FromHexHash
    rw [decodeHex_hexString fp hbytes]
    simp [fromHashBytes_of_length_32 fp hlen]
  · unfold FromB64Hash
    rw [b64Decode_b64Encode fp hbytes]
    simp [fromHashBytes_of_length_32 fp hlen]

/-- C8 witness: the round trip evaluated on the concrete fingerprint
0, 1, ..., 31. -/
theorem C8_fingerprint_codec_roundtrip_witness :
    FromHexHash (HexString (List.range 32)) = some (List.range 32) ∧
      FromB64Hash (B64Encode (List.range 32)) = some (List.range 32) :=
  C8_fingerprint_codec_roundtrip (List.range 32) (by decide) (by decide)

theorem alookup_aset_self {α β : Type} [DecidableEq α] (m : List (α × β)) (k : α) (v : β) :
    alookup (aset m k v) k = some v := by
  induction m with
  | nil => simp [aset, alookup]
  | cons p rest ih =>
    obtain ⟨k0, v0⟩ := p
    by_cases h : k0 = k
    · simp [aset, alookup, h]
    · simp [aset, alookup, h, ih]

theorem alookup_aset_ne {α β : Type} [DecidableEq α] (m : List (α × β)) (k k' : α) (v : β)
    (h : k' ≠ k) : alookup (aset m k v) k' = alookup m k' := by
  have h' : ¬(k = k') := fun hh => h hh.symm
  induction m with
  | nil => simp [aset, alookup, h']
  | cons p rest ih =>
    obtain ⟨k0, v0⟩ := p
    by_cases h0 : k0 = k
    · subst h0
      simp [aset, alookup, h']
    · simp [aset, alookup, h0, ih]

theorem alookup_adelete_ne {α β : Type} [DecidableEq α] (m : List (α × β)) (k k' : α)
    (h : k' ≠ k) : alookup (adelete m k) k' = alookup m k' := by
  have h' : ¬(k = k') := fun hh => h hh.symm
  induction m with
  | nil => simp [adelete, alookup]
  | cons p rest ih =>
    obtain ⟨k0, v0⟩ := p
    by_cases h0 : k0 = k
    · subst h0
      simp [adelete, alookup, h']
    · simp [adelete, alookup, h0, ih]

theorem adelete_sublist {α β : Type} [DecidableEq α] (m : List (α × β)) (k : α) :
    (adelete m k).Sublist m := by
  induction m with
  | nil => simp [adelete]
  | cons p rest ih =>
    obtain ⟨k0, v0⟩ := p
    by_cases h0 : k0 = k
    · simp [adelete, h0]
    · simpa [adelete, h0] using ih

theorem alookup_eq_none_of_not_mem_keys {α β : Type} [DecidableEq α] (m : List (α × β)) (k : α)
    (h : k ∉ m.map Prod.fst) : alookup m k = none := by
  induction m with
  | nil => rfl
  | cons p rest ih =>
    obtain ⟨k0, v0⟩ := p
    simp only [List.map_cons, List.mem_cons] at h
    push_neg at h
    have h0 : ¬(k0 = k) := fun hh => h.1 hh.symm
    simp [alookup, h0, ih h.2]

theorem alookup_adelete_self {α β : Type} [DecidableEq α] (m : List (α × β)) (k : α)
    (hm : (m.map Prod.fst).Nodup) : alookup (adelete m k) k = none := by
  induction m with
  | nil => simp [adelete, alookup]
  | cons p rest ih =>
    obtain ⟨k0, v0⟩ := p
    simp only [List.map_cons, List.nodup_cons] at hm
    by_cases h0 : k0 = k
    · subst h0
      simp only [adelete, if_pos rfl]
      exact alookup_eq_none_of_not_mem_keys rest k0 hm.1
    · simp only [adelete, if_neg h0, alookup, if_neg h0]
      exact ih hm.2

theorem mem_aset {α β : Type} [DecidableEq α] (m : List (α × β)) (k : α) (v : β) (x : α × β)
    (h : x ∈ aset m k v) : x ∈ m ∨ x = (k, v) := by
  induction m with
  | nil =>
    simp only [aset, List.mem_singleton] at h
    exact Or.inr h
  | cons p rest ih =>
    obtain ⟨k0, v0⟩ := p
    by_cases h0 : k0 = k
    · simp only [aset, if_pos h0] at h
      rcases List.mem_cons.mp h with h1 | h1
      · right; exact h1
      · left; exact List.mem_cons_of_mem _ h1
    · simp only [aset, if_neg h0] at h
      rcases List.mem_cons.mp h with h1 | h1
      · left; simp [h1]
      · rcases ih h1 with h2 | h2
        · left; exact List.mem_cons_of_mem _ h2
        · right; exact h2

theorem keys_nodup_aset {α β : Type} [DecidableEq α] (m : List (α × β)) (k : α) (v : β)
    (hm : (m.map Prod.fst).Nodup) : ((aset m k v).map Prod.fst).Nodup := by
  induction m with
  | nil => simp [aset]
  | cons p rest ih =>
    obtain ⟨k0, v0⟩ := p
    simp only [List.map_cons, List.nodup_cons] at hm
    by_cases h0 : k0 = k
    · subst h0
      have hset : aset ((k0, v0) :: rest) k0 v = (k0, v) :: rest := by simp [aset]
      rw [hset]
      simpa using hm
    · simp only [aset, if_neg h0, List.map_cons, List.nodup_cons]
      refine ⟨fun hmem => ?_, ih hm.2⟩
      simp only [List.mem_map] at hmem
      obtain ⟨x, hx, hxk⟩ := hmem
      rcases mem_aset rest k v x hx with h1 | h1
      · exact hm.1 (by simp only [List.mem_map]; exact ⟨x, h1, hxk⟩)
      · exact h0 (by rw [h1] at hxk; exact hxk.symm)

theorem alookup_eq_some_of_mem {α β : Type} [DecidableEq α] (m : List (α × β)) (k : α) (v : β)
    (hm : (m.map Prod.fst).Nodup) (h : (k, v) ∈ m) : alookup m k = some v := by
  induction m with
  | nil => simp at h
  | cons p rest ih =>
    obtain ⟨k0, v0⟩ := p
    simp only [List.map_cons, List.nodup_cons] at hm
    rcases List.mem_cons.mp h with h1 | h1
    · rw [show k0 = k from (Prod.mk.injEq .. ▸ h1.symm).1,
        show v0 = v from (Prod.mk.injEq .. ▸ h1.symm).2]
      simp [alookup]
    · have hk0 : k0 ≠ k := by
        intro hk
        subst hk
        exact hm.1 (by simp only [List.mem_map]; exact ⟨(k0, v), h1, rfl⟩)
      simp only [alookup, if_neg hk0]
      exact ih hm.2 h1

theorem mem_of_alookup_eq_some {α β : Type} [DecidableEq α] (m : List (α × β)) (k : α) (v : β)
    (h : alookup m k = some v) : (k, v) ∈ m := by
  induction m with
  | nil => simp [alookup] at h
  | cons p rest ih =>
    obtain ⟨k0, v0⟩ := p
    by_cases h0 : k0 = k
    · subst h0
      simp only [alookup, if_pos rfl, Option.some.injEq] at h
      simp at h
      rw [← h]
      exact List.mem_cons_self _ _
    · simp only [alookup, if_neg h0] at h
      exact List.mem_cons_of_mem _ (ih h)

/-- Lookup through a left fold that `aset`s every binding of `L`
(the shape of every map-merge loop in the source). -/
theorem alookup_foldl_aset {α β : Type} [DecidableEq α] (L : List (α × β))
    (hL : (L.map Prod.fst).Nodup) (acc : List (α × β)) (k : α) :
    alookup (L.foldl (fun a p => aset a p.1 p.2) acc) k =
      (alookup L k).or (alookup acc k) := by
  induction L generalizing acc with
  | nil => simp [alookup]
  | cons p rest ih =>
    obtain ⟨k0, v0⟩ := p
    simp only [List.map_cons, List.nodup_cons] at hL
    simp only [List.foldl_cons]
    rw [ih hL.2]
    by_cases h0 : k0 = k
    · subst h0
      have hnone : alookup rest k0 = none := alookup_eq_none_of_not_mem_keys rest k0 hL.1
      have hcons : alookup ((k0, v0) :: rest) k0 = some v0 := by simp [alookup]
      simp only [hnone, hcons, alookup_aset_self, Option.none_or, Option.or_some]
    · have hk : k ≠ k0 := fun hh => h0 hh.symm
      have hcons : alookup ((k0, v0) :: rest) k = alookup rest k := by simp [alookup, h0]
      simp only [hcons, alookup_aset_ne acc k0 k v0 hk]

/-- C7: after `AddStatusMap m`, a binding for the node's own domain (if
any) becomes the node's status and is removed from `m`; all other
bindings survive in `m` and are merged into `relatedDomains`,
overwriting; without a self binding the status is unchanged. -/
theorem C7_addStatusMap_spec (d : DomainNode) (m : List (String × Status))
    (hm : (m.map Prod.fst).Nodup) :
    (∀ st, alookup m d.domain = some st →
        (AddStatusMap d m).1.status = st ∧ alookup (AddStatusMap d m).2 d.domain = none) ∧
    (alookup m d.domain = none →
        (AddStatusMap d m).1.status = d.status ∧ (AddStatusMap d m).2 = m) ∧
    (∀ k, k ≠ d.domain → alookup (AddStatusMap d m).2 k = alookup m k) ∧
    (∀ k, alookup (AddStatusMap d m).1.relatedDomains k =
        (alookup (AddStatusMap d m).2 k).or (alookup d.relatedDomains k)) := by
  refine ⟨?_, ?_, ?_, ?_⟩
  · intro st hst
    refine ⟨?_, ?_⟩
    · simp [AddStatusMap, hst]
    · simp only [AddStatusMap, hst]
      exact alookup_adelete_self m d.domain hm
  · intro hnone
    refine ⟨?_, ?_⟩
    · simp [AddStatusMap, hnone]
    · simp [AddStatusMap, hnone]
  · intro k hk
    cases hst : alookup m d.domain with
    | none => simp only [AddStatusMap, hst]
    | some st =>
      simp only [AddStatusMap, hst]
      exact alookup_adelete_ne m d.domain k hk
  · intro k
    cases hst : alookup m d.domain with
    | none =>
      simp only [AddStatusMap, hst]
      exact alookup_foldl_aset m hm d.relatedDomains k
    | some st =>
      simp only [AddStatusMap, hst]
      exact alookup_foldl_aset (adelete m d.domain) (((adelete_sublist m d.domain).map Prod.fst).nodup hm) d.relatedDomains k

/-- C7 witness: the S6 scenario, with `m = \x7bD: Good, X: Redirect(Y)\x7d`
queried from node `D`. -/
theorem C7_addStatusMap_spec_witness :
    (AddStatusMap (NewDomainNode "d.com" 0)
        [("d.com", statusNew .good), ("x.com", (⟨.redirect, "y.com"⟩ : Status))]).1.status =
      statusNew .good ∧
    alookup (AddStatusMap (NewDomainNode "d.com" 0)
        [("d.com", statusNew .good), ("x.com", (⟨.redirect, "y.com"⟩ : Status))]).2 "d.com" =
      none :=
  (C7_addStatusMap_spec (NewDomainNode "d.com" 0)
      [("d.com", statusNew .good), ("x.com", ⟨.redirect, "y.com"⟩)] (by decide)).1
    (statusNew .good) (by decide)

theorem alookup_insTrue (l : List String) (acc : List (String × Bool)) (k : String) :
    alookup (insTrue acc l) k = if k ∈ l then some true else alookup acc k := by
  induction l generalizing acc with
  | nil => simp [insTrue]
  | cons d rest ih =>
    simp only [insTrue, List.foldl_cons] at *
    rw [ih]
    by_cases hk : k ∈ rest
    · simp [hk]
    · by_cases hd : k = d
      · subst hd
        simp [hk, alookup_aset_self]
      · simp [hk, hd, alookup_aset_ne acc d k true hd]

theorem keys_nodup_insTrue (l : List String) (acc : List (String × Bool))
    (hacc : (acc.map Prod.fst).Nodup) : ((insTrue acc l).map Prod.fst).Nodup := by
  induction l generalizing acc with
  | nil => simpa [insTrue] using hacc
  | cons d rest ih =>
    simp only [insTrue, List.foldl_cons] at *
    exact ih _ (keys_nodup_aset acc d true hacc)

theorem certSkip_eq_left {apexDomain : String → Option String} {cdn : Bool} {maxSANsSize : Int}
    {cn : CertNode} (h : (!cdn && CDNCert cn) = true) :
    certSkip apexDomain cdn maxSANsSize cn = true := by
  simp [certSkip, h]

theorem certSkip_eq_right {apexDomain : String → Option String} {cdn : Bool} {maxSANsSize : Int}
    {cn : CertNode}
    (h : (decide (0 < maxSANsSize) &&
        decide ((ApexCount apexDomain cn : Int) > maxSANsSize)) = true) :
    certSkip apexDomain cdn maxSANsSize cn = true := by
  simp [certSkip, h]

theorem alookup_certNeighborsFold (apexDomain : String → Option String) (graph : CertGraph)
    (cdn : Bool) (maxSANsSize : Int) (fps : List (Fp × List String))
    (acc : List (String × Bool)) (k : String) :
    alookup (certNeighborsFold apexDomain graph cdn maxSANsSize acc fps) k = some true ↔
      (∃ p ∈ fps, ∃ cn, alookup graph.certs p.1 = some cn ∧
          certSkip apexDomain cdn maxSANsSize cn = false ∧ k ∈ cn.domains) ∨
        alookup acc k = some true := by
  induction fps generalizing acc with
  | nil => simp [certNeighborsFold]
  | cons p rest ih =>
    simp only [certNeighborsFold]
    rw [ih]
    cases hcn : alookup graph.certs p.1 with
    | none =>
      constructor
      · rintro (hex | hacc)
        · exact Or.inl (by obtain ⟨q, hq, rest2⟩ := hex; exact ⟨q, List.mem_cons_of_mem _ hq, rest2⟩)
        · exact Or.inr hacc
      · rintro (⟨q, hq, cn, hcn2, hrest⟩ | hacc)
        · rcases List.mem_cons.mp hq with rfl | hq2
          · rw [hcn] at hcn2; cases hcn2
          · exact Or.inl ⟨q, hq2, cn, hcn2, hrest⟩
        · exact Or.inr hacc
    | some cn =>
      by_cases hskip : certSkip apexDomain cdn maxSANsSize cn = true
      · have hstep : (if !cdn && CDNCert cn then acc
            else if decide (0 < maxSANsSize) &&
                decide ((ApexCount apexDomain cn : Int) > maxSANsSize) then acc
            else insTrue acc cn.domains) = acc := by
          unfold certSkip at hskip
          rcases Bool.or_eq_true_iff.mp hskip with h1 | h1
          · rw [if_pos h1]
          · by_cases h2 : (!cdn && CDNCert cn) = true
            · rw [if_pos h2]
            · rw [if_neg h2, if_pos h1]
        dsimp only
        rw [hstep]
        constructor
        · rintro (hex | hacc)
          · exact Or.inl (by obtain ⟨q, hq, rest2⟩ := hex; exact ⟨q, List.mem_cons_of_mem _ hq, rest2⟩)
          · exact Or.inr hacc
        · rintro (⟨q, hq, cn2, hcn2, hsk2, hmem⟩ | hacc)
          · rcases List.mem_cons.mp hq with rfl | hq2
            · rw [hcn] at hcn2
              cases hcn2
              rw [hskip] at hsk2
              cases hsk2
            · exact Or.inl ⟨q, hq2, cn2, hcn2, hsk2, hmem⟩
          · exact Or.inr hacc
      · have hskipf : certSkip apexDomain cdn maxSANsSize cn = false := by
          cases h : certSkip apexDomain cdn maxSANsSize cn
          · rfl
          · exact absurd h hskip
        have h1 : (!cdn && CDNCert cn) = false := by
          cases h : (!cdn && CDNCert cn)
          · rfl
          · exact absurd (certSkip_eq_left h) hskip
        have h2 : (decide (0 < maxSANsSize) &&
            decide ((ApexCount apexDomain cn : Int) > maxSANsSize)) = false := by
          cases h : (decide (0 < maxSANsSize) &&
              decide ((ApexCount apexDomain cn : Int) > maxSANsSize))
          · rfl
          · exact absurd (certSkip_eq_right h) hskip
        have hstep : (if !cdn && CDNCert cn then acc
            else if decide (0 < maxSANsSize) &&
                decide ((ApexCount apexDomain cn : Int) > maxSANsSize) then acc
            else insTrue acc cn.domains) = insTrue acc cn.domains := by
          rw [if_neg (by simp [h1]), if_neg (by simp [h2])]
        dsimp only
        rw [hstep, alookup_insTrue]
        by_cases hmem : k ∈ cn.domains
        · simp only [hmem, if_pos]
          constructor
          · intro _
            exact Or.inl ⟨p, List.mem_cons_self _ _, cn, hcn, hskipf, hmem⟩
          · intro _
            exact Or.inr trivial
        · simp only [hmem, if_neg, if_false]
          constructor
          · rintro (hex | hacc)
            · exact Or.inl (by obtain ⟨q, hq, rest2⟩ := hex; exact ⟨q, List.mem_cons_of_mem _ hq, rest2⟩)
            · exact Or.inr hacc
          · rintro (⟨q, hq, cn2, hcn2, hsk2, hmem2⟩ | hacc)
            · rcases List.mem_cons.mp hq with rfl | hq2
              · rw [hcn] at hcn2
                cases hcn2
                exact absurd hmem2 hmem
              · exact Or.inl ⟨q, hq2, cn2, hcn2, hsk2, hmem2⟩
            · exact Or.inr hacc

theorem keys_nodup_certNeighborsFold (apexDomain : String → Option String) (graph : CertGraph)
    (cdn : Bool) (maxSANsSize : Int) (fps : List (Fp × List String))
    (acc : List (String × Bool)) (hacc : (acc.map Prod.fst).Nodup) :
    ((certNeighborsFold apexDomain graph cdn maxSANsSize acc fps).map Prod.fst).Nodup := by
  induction fps generalizing acc with
  | nil => simpa [certNeighborsFold] using hacc
  | cons p rest ih =>
    simp only [certNeighborsFold]
    apply ih
    cases alookup graph.certs p.1 with
    | none => exact hacc
    | some cn =>
      by_cases h1 : (!cdn && CDNCert cn) = true
      · simpa [h1] using hacc
      · by_cases h2 : (decide (0 < maxSANsSize) &&
            decide ((ApexCount apexDomain cn : Int) > maxSANsSize)) = true
        · simp only [Bool.not_eq_true] at h1
          simpa [h1, h2] using hacc
        · simp only [Bool.not_eq_true] at h1 h2
          simpa [h1, h2] using keys_nodup_insTrue cn.domains acc hacc

theorem mem_filter_true_map_fst (l : List (String × Bool)) (x : String) :
    x ∈ (l.filter (fun p => p.2)).map Prod.fst ↔ (x, true) ∈ l := by
  simp only [List.mem_map, List.mem_filter]
  constructor
  · rintro ⟨⟨a, b⟩, ⟨hmem, hb⟩, hx⟩
    simp only at hb hx
    subst hx
    cases b
    · cases hb
    · exact hmem
  · intro h
    exact ⟨(x, true), ⟨h, rfl⟩, rfl⟩

/-- C1: for a normalized domain present in the graph, `GetDomainNeighbors`
returns exactly the deduplicated set of the related-map keys together with
every SAN of every non-skipped certificate of the node that is present in
the graph, minus the source domain itself; a certificate is skipped iff
(CDN certs are excluded and it is one) or (the cap is positive and its
apex count exceeds it). -/
theorem C1_getDomainNeighbors_spec (apexDomain : String → Option String) (graph : CertGraph)
    (domain : String) (cdn : Bool) (maxSANsSize : Int) (node : DomainNode)
    (hnorm : nonWildcard domain = domain)
    (hnode : alookup graph.domains domain = some node) :
    (GetDomainNeighbors apexDomain graph domain cdn maxSANsSize).Nodup ∧
    ∀ x, x ∈ GetDomainNeighbors apexDomain graph domain cdn maxSANsSize ↔
      x ≠ domain ∧
        (x ∈ node.relatedDomains.map Prod.fst ∨
          ∃ p ∈ node.certs, ∃ cn, alookup graph.certs p.1 = some cn ∧
            certSkip apexDomain cdn maxSANsSize cn = false ∧ x ∈ cn.domains) := by
  have hkeys0 : ((insTrue [] (node.relatedDomains.map Prod.fst)).map Prod.fst).Nodup :=
    keys_nodup_insTrue _ [] (by simp)
  have hkeys1 := keys_nodup_certNeighborsFold apexDomain graph cdn maxSANsSize node.certs
    (insTrue [] (node.relatedDomains.map Prod.fst)) hkeys0
  have hkeys2 := keys_nodup_aset _ domain false hkeys1
  have hunfold : GetDomainNeighbors apexDomain graph domain cdn maxSANsSize =
      ((aset (certNeighborsFold apexDomain graph cdn maxSANsSize
          (insTrue [] (node.relatedDomains.map Prod.fst)) node.certs) domain false).filter
        (fun p => p.2)).map Prod.fst := by
    unfold GetDomainNeighbors
    rw [hnorm]
    dsimp only
    rw [hnode]
  constructor
  · rw [hunfold]
    exact ((List.filter_sublist _).map Prod.fst).nodup hkeys2
  · intro x
    rw [hunfold, mem_filter_true_map_fst]
    constructor
    · intro hmem
      have hlk := alookup_eq_some_of_mem _ x true hkeys2 hmem
      by_cases hx : x = domain
      · subst hx
        rw [alookup_aset_self] at hlk
        cases hlk
      · rw [alookup_aset_ne _ domain x false (by exact hx)] at hlk
        rw [alookup_certNeighborsFold] at hlk
        refine ⟨hx, ?_⟩
        rcases hlk with hcert | hrel
        · exact Or.inr hcert
        · rw [alookup_insTrue] at hrel
          by_cases hr : x ∈ node.relatedDomains.map Prod.fst
          · exact Or.inl hr
          · rw [if_neg hr] at hrel
            simp [alookup] at hrel
    · rintro ⟨hx, hsrc⟩
      apply mem_of_alookup_eq_some
      rw [alookup_aset_ne _ domain x false (by exact hx)]
      rw [alookup_certNeighborsFold]
      rcases hsrc with hrel | hcert
      · right
        rw [alookup_insTrue, if_pos hrel]
      · exact Or.inl hcert

/-- C1 witness: the deduplication half of the claim evaluated on a small
concrete graph with one related domain and one two-SAN certificate. -/
theorem C1_getDomainNeighbors_spec_witness :
    (GetDomainNeighbors (fun _ => none)
        { domains := [("d.com",
            { domain := "d.com", depth := 0
              certs := [([1], ["drv"])]
              relatedDomains := [("r.com", statusNew .redirect)]
              status := statusZero, root := true, hasDNS := false })]
          certs := [([1],
            { fingerprint := [1], domains := ["a.com", "d.com"], foundMap := [] })] }
        "d.com" false 0).Nodup :=
  (C1_getDomainNeighbors_spec (fun _ => none)
      { domains := [("d.com",
          { domain := "d.com", depth := 0
            certs := [([1], ["drv"])]
            relatedDomains := [("r.com", statusNew .redirect)]
            status := statusZero, root := true, hasDNS := false })]
        certs := [([1],
          { fingerprint := [1], domains := ["a.com", "d.com"], foundMap := [] })] }
      "d.com" false 0
      { domain := "d.com", depth := 0
        certs := [([1], ["drv"])]
        relatedDomains := [("r.com", statusNew .redirect)]
        status := statusZero, root := true, hasDNS := false }
      (by decide) (by decide)).1

/-- C10: querying a domain whose wildcard-stripped form is not in the
graph yields the empty neighbor list, for any CDN and SANs-cap settings. -/
theorem C10_getDomainNeighbors_absent (apexDomain : String → Option String) (graph : CertGraph)
    (domain : String) (cdn : Bool) (maxSANsSize : Int)
    (h : alookup graph.domains (nonWildcard domain) = none) :
    GetDomainNeighbors apexDomain graph domain cdn maxSANsSize = [] := by
  unfold GetDomainNeighbors
  dsimp only
  rw [h]
  simp [aset, List.filter]

/-- C10 witness: the empty graph queried at a wildcard name. -/
theorem C10_getDomainNeighbors_absent_witness :
    GetDomainNeighbors (fun _ => none) { domains := [], certs := [] } "*.x.com" true 80 = [] :=
  C10_getDomainNeighbors_absent (fun _ => none) { domains := [], certs := [] } "*.x.com" true 80
    (by decide)

theorem strLtb_asymm : ∀ a b, strLtb a b = true → strLtb b a = false
  | [], [] => by simp [strLtb]
  | [], _ :: _ => by simp [strLtb]
  | _ :: _, [] => by simp [strLtb]
  | a :: as, b :: bs => by
    simp only [strLtb]
    intro h
    by_cases h1 : a.toNat < b.toNat
    · rw [if_neg (by omega), if_pos h1]
    · rw [if_neg h1] at h
      by_cases h2 : b.toNat < a.toNat
      · rw [if_pos h2] at h
        cases h
      · rw [if_neg h2] at h
        rw [if_neg h2, if_neg h1]
        exact strLtb_asymm as bs h

theorem strLeb_total_of_false {x y : String} (h : strLeb x y = false) : strLeb y x = true := by
  unfold strLeb at *
  have h1 : strLtb y.data x.data = true := by
    cases h2 : strLtb y.data x.data
    · rw [h2] at h
      cases h
    · rfl
  rw [strLtb_asymm _ _ h1]
  rfl

theorem insertSortedStr_perm (x : String) (l : List String) :
    (insertSortedStr x l).Perm (x :: l) := by
  induction l with
  | nil => simp [insertSortedStr]
  | cons y ys ih =>
    by_cases h : strLeb x y = true
    · simp [insertSortedStr, h]
    · simp only [insertSortedStr, if_neg h]
      exact (List.Perm.cons y ih).trans (List.Perm.swap x y ys)

theorem sortStrings_perm (l : List String) : (sortStrings l).Perm l := by
  induction l with
  | nil => simp [sortStrings]
  | cons x xs ih =>
    simp only [sortStrings, List.foldr_cons] at *
    exact (insertSortedStr_perm x _).trans (ih.cons x)

theorem sorted_insertSortedStr (x : String) (l : List String) (h : SortedStr l) :
    SortedStr (insertSortedStr x l) ∧
      ((insertSortedStr x l).head? = some x ∨ (insertSortedStr x l).head? = l.head?) := by
  induction l with
  | nil =>
    constructor
    · simp [insertSortedStr, SortedStr]
    · left
      simp [insertSortedStr]
  | cons y ys ih =>
    by_cases hxy : strLeb x y = true
    · constructor
      · simp only [insertSortedStr, if_pos hxy, SortedStr, List.chain'_cons']
        refine ⟨?_, List.chain'_cons'.mp h⟩
        intro z hz
        simp only [List.head?_cons, Option.mem_def, Option.some.injEq] at hz
        subst hz
        exact hxy
      · left
        simp [insertSortedStr, hxy]
    · have hyx : strLeb y x = true := strLeb_total_of_false (by
        cases hh : strLeb x y
        · rfl
        · exact absurd hh hxy)
      have hys : SortedStr ys := (List.chain'_cons'.mp h).2
      have hhead := (List.chain'_cons'.mp h).1
      obtain ⟨ihs, ihh⟩ := ih hys
      constructor
      · simp only [insertSortedStr, if_neg hxy, SortedStr, List.chain'_cons']
        refine ⟨?_, ihs⟩
        intro z hz
        rcases ihh with hh | hh
        · rw [hh] at hz
          simp only [Option.mem_def, Option.some.injEq] at hz
          subst hz
          exact hyx
        · rw [hh] at hz
          exact hhead z hz
      · right
        simp [insertSortedStr, hxy]

theorem sorted_sortStrings (l : List String) : SortedStr (sortStrings l) := by
  induction l with
  | nil => simp [sortStrings, SortedStr]
  | cons x xs ih =>
    simp only [sortStrings, List.foldr_cons] at *
    exact (sorted_insertSortedStr x _ ih).1

/-- C4 (amended, positive half): every `CertResult` built by
`driver.NewCertResult` carries a byte-wise-ascending sorted,
duplicate-free, lowercased domain list. -/
theorem C4_newCertResult_sorted_dedup (raw : Fp) (commonName : String)
    (dnsNames : List String) :
    SortedStr (NewCertResult raw commonName dnsNames).domains ∧
      (NewCertResult raw commonName dnsNames).domains.Nodup ∧
      ∀ s ∈ (NewCertResult raw commonName dnsNames).domains, goToLower s = s := by
  unfold NewCertResult
  dsimp only
  refine ⟨sorted_sortStrings _, ?_, ?_⟩
  · exact ((sortStrings_perm _).nodup_iff).mpr (List.nodup_dedup _)
  · intro s hs
    have hs2 : s ∈ ((if (goToLower commonName).length > 0 then [goToLower commonName] else []) ++
        (dnsNames.filter (fun d => d.length > 0)).map goToLower) := by
      have := ((sortStrings_perm _).mem_iff).mp hs
      exact List.mem_dedup.mp this
    rcases List.mem_append.mp hs2 with hcn | hdns
    · by_cases hlen : (goToLower commonName).length > 0
      · rw [if_pos hlen] at hcn
        simp only [List.mem_singleton] at hcn
        subst hcn
        exact goToLower_idem commonName
      · rw [if_neg hlen] at hcn
        cases hcn
    · obtain ⟨t, _, rfl⟩ := List.mem_map.mp hdns
      exact goToLower_idem t

/-- C4 witness: the positive half evaluated on a concrete certificate
(Common Name `B.Com`, one SAN). -/
theorem C4_newCertResult_sorted_dedup_witness :
    SortedStr (NewCertResult [1] "B.Com" ["a.com"]).domains :=
  (C4_newCertResult_sorted_dedup [1] "B.Com" ["a.com"]).1

/-- C4 counterexample: the crtsh driver's `QueryCert` copies database rows
verbatim, so the CertNode put in the graph can violate sortedness,
deduplication and lowercasing. -/
theorem C4_crtsh_counterexample :
    (certNodeFromCertResult (crtshQueryCertModel [1] ["b.com", "A.com"])).domains =
        ["b.com", "A.com"] ∧
      ¬ SortedStr (certNodeFromCertResult (crtshQueryCertModel [1] ["b.com", "A.com"])).domains ∧
      ¬ ∀ s ∈ (certNodeFromCertResult (crtshQueryCertModel [1] ["b.com", "A.com"])).domains,
          goToLower s = s := by
  refine ⟨by decide, ?_, ?_⟩
  · intro h
    have : strLeb "b.com" "A.com" = true := (List.chain'_cons.mp h).1
    exact absurd this (by decide)
  · intro h
    have := h "A.com" (by decide)
    exact absurd this (by decide)

theorem goToLower_nonWildcard_fix (s : String) (h : goToLower s = s) :
    goToLower (nonWildcard s) = nonWildcard s := by
  have hdata : s.data.map goCharToLower = s.data := congrArg String.data h
  unfold nonWildcard
  split
  · rename_i rest heq
    rw [heq] at hdata
    simp only [List.map_cons, List.cons.injEq] at hdata
    unfold goToLower
    exact congrArg String.mk hdata.2.2
  · exact h

theorem nonWildcard_of_not_wildcard (s : String) (h : startsWithWildcard s = false) :
    nonWildcard s = s := by
  unfold startsWithWildcard at h
  unfold nonWildcard
  split
  · rename_i rest heq
    rw [heq] at h
    simp at h
  · rfl

theorem newDomainNode_domain_lower_fix (s : String) (d : Nat) :
    goToLower (NewDomainNode s d).domain = (NewDomainNode s d).domain :=
  goToLower_nonWildcard_fix (goToLower s) (goToLower_idem s)

/-- Every entry the admission loop ever stores is a `NewDomainNode` built
from some candidate whose depth passed the bound. -/
theorem bfsAdmitAll_shape (cfg : BfsConfig) (cands : List (String × Nat)) :
    ∀ e ∈ bfsAdmitAll cfg cands,
      ∃ s d, e.2 = NewDomainNode s d ∧ d ≤ cfg.maxDepth := by
  have main : ∀ (cs : List (String × Nat)) (g0 : List (String × DomainNode)),
      (∀ e ∈ g0, ∃ s d, e.2 = NewDomainNode s d ∧ d ≤ cfg.maxDepth) →
      ∀ e ∈ cs.foldl (fun g c => admitCandidate cfg g (NewDomainNode c.1 c.2)) g0,
        ∃ s d, e.2 = NewDomainNode s d ∧ d ≤ cfg.maxDepth := by
    intro cs
    induction cs with
    | nil => intro g0 h0 e he; exact h0 e he
    | cons c rest ih =>
      intro g0 h0 e he
      simp only [List.foldl_cons] at he
      refine ih _ ?_ e he
      intro e2 he2
      unfold admitCandidate at he2
      by_cases hd : (NewDomainNode c.1 c.2).depth > cfg.maxDepth
      · rw [if_pos hd] at he2
        exact h0 e2 he2
      · rw [if_neg hd] at he2
        cases hlk : alookup g0 (NewDomainNode c.1 c.2).domain with
        | some _ =>
          rw [hlk] at he2
          exact h0 e2 he2
        | none =>
          rw [hlk] at he2
          rcases mem_aset _ _ _ _ he2 with hmem | hmem
          · exact h0 e2 hmem
          · refine ⟨c.1, c.2, ?_, ?_⟩
            · rw [hmem]
            · have : (NewDomainNode c.1 c.2).depth = c.2 := rfl
              omega
  exact main cands [] (by simp)

/-- C3 (amended): every DomainNode stored by the admission loop has depth
at most the configured maximum, its domain is lowercase-fixed, and it is
a fixpoint of the full normalization whenever it does not itself begin
with a (doubled, in the original candidate) wildcard prefix. -/
theorem C3_bfs_admitted_invariant (cfg : BfsConfig) (cands : List (String × Nat)) :
    ∀ e ∈ bfsAdmitAll cfg cands,
      e.2.depth ≤ cfg.maxDepth ∧
      goToLower e.2.domain = e.2.domain ∧
      (startsWithWildcard e.2.domain = false →
        nonWildcard (goToLower e.2.domain) = e.2.domain) := by
  intro e he
  obtain ⟨s, d, hshape, hd⟩ := bfsAdmitAll_shape cfg cands e he
  have hdep : e.2.depth = d := by rw [hshape]; rfl
  have hlow : goToLower e.2.domain = e.2.domain := by
    rw [hshape]
    exact newDomainNode_domain_lower_fix s d
  refine ⟨by omega, hlow, ?_⟩
  intro hw
  rw [hlow]
  exact nonWildcard_of_not_wildcard _ hw

/-- C3 witness: the amended invariant read off a concrete one-candidate
run. -/
theorem C3_bfs_admitted_invariant_witness :
    ("foo.com", NewDomainNode "Foo.COM" 2) ∈ bfsAdmitAll ⟨5⟩ [("Foo.COM", 2)] ∧
      (NewDomainNode "Foo.COM" 2).depth ≤ 5 := by
  have h := C3_bfs_admitted_invariant ⟨5⟩ [("Foo.COM", 2)]
    ("foo.com", NewDomainNode "Foo.COM" 2) (by decide)
  exact ⟨by decide, h.1⟩

/-- C3 counterexample: a candidate beginning with a doubled wildcard
prefix is stored with domain `*.example.com`, which is not a fixpoint of
the lowercase, non-wildcard normalization. -/
theorem C3_counterexample :
    ((bfsAdmitAll ⟨5⟩ [("*.*.Example.com", 0)]).all
      (fun e => nonWildcard (goToLower e.2.domain) == e.2.domain)) = false := by
  decide

/-- C5: evaluation at the failing input.  The first child result fails
to resolve the fingerprint (returns an error), the second child has the
certificate; the merged `QueryCert` returns the first child's error and
never reaches the second child, contradicting the claimed
first-non-nil-answer probing. -/
theorem C5_multiQueryCert_error_shortcircuits :
    multiQueryCert
        [fun _ => (some "certificate with Fingerprint 01 not found", none),
         fun _ => (none, some { fingerprint := [1], domains := ["a.com"] })] [1] =
      (some "certificate with Fingerprint 01 not found", none) := by
  rfl

theorem alookup_fpmAdd_self (f : List (String × List Fp)) (domain : String) (fp : Fp) :
    alookup (fpmAdd f domain fp) domain = some ((alookup f domain).getD [] ++ [fp]) := by
  unfold fpmAdd
  exact alookup_aset_self f domain _

theorem alookup_fpmAdd_ne (f : List (String × List Fp)) (domain k : String) (fp : Fp)
    (h : k ≠ domain) : alookup (fpmAdd f domain fp) k = alookup f k := by
  unfold fpmAdd
  exact alookup_aset_ne f domain k _ h

theorem alookup_fpmAdd_fold (l : List Fp) (domain : String) (acc : List (String × List Fp))
    (k : String) :
    (alookup (l.foldl (fun a2 fp => fpmAdd a2 domain fp) acc) k).getD [] =
      if k = domain then (alookup acc domain).getD [] ++ l
      else (alookup acc k).getD [] := by
  induction l generalizing acc with
  | nil =>
    by_cases h : k = domain
    · subst h
      simp
    · simp [h]
  | cons fp fps ih =>
    simp only [List.foldl_cons]
    rw [ih]
    by_cases h : k = domain
    · subst h
      rw [if_pos rfl, if_pos rfl, alookup_fpmAdd_self]
      simp
    · rw [if_neg h, if_neg h, alookup_fpmAdd_ne _ _ _ _ h]

theorem alookup_multiResultAdd (child : List (String × List Fp))
    (hch : (child.map Prod.fst).Nodup) (acc : List (String × List Fp)) (k : String) :
    (alookup (multiResultAdd acc child) k).getD [] =
      (alookup acc k).getD [] ++ (alookup child k).getD [] := by
  induction child generalizing acc with
  | nil => simp [multiResultAdd, alookup]
  | cons p rest ih =>
    obtain ⟨dom, l⟩ := p
    simp only [List.map_cons, List.nodup_cons] at hch
    simp only [multiResultAdd, List.foldl_cons] at *
    rw [ih hch.2]
    by_cases h : k = dom
    · subst h
      have hnone : alookup rest k = none := alookup_eq_none_of_not_mem_keys rest k hch.1
      rw [hnone, alookup_fpmAdd_fold, if_pos rfl]
      have hcons : alookup ((k, l) :: rest) k = some l := by simp [alookup]
      rw [hcons]
      simp
    · have hcons : alookup ((dom, l) :: rest) k = alookup rest k := by
        have hne : ¬(dom = k) := fun hh => h hh.symm
        simp [alookup, hne]
      rw [hcons, alookup_fpmAdd_fold, if_neg h]

/-- C6 (amended): the merged `Fingerprints()` view is the per-domain
concatenation of the child maps in merge order; duplicates across child
drivers are kept, not deduplicated. -/
theorem C6_multiFingerprints_concat (children : List (List (String × List Fp)))
    (h : ∀ c ∈ children, (c.map Prod.fst).Nodup) (d : String) :
    (alookup (multiFingerprints children) d).getD [] =
      (children.map (fun c => (alookup c d).getD [])).flatten := by
  have main : ∀ (cs : List (List (String × List Fp))) (acc : List (String × List Fp)),
      (∀ c ∈ cs, (c.map Prod.fst).Nodup) →
      (alookup (cs.foldl multiResultAdd acc) d).getD [] =
        (alookup acc d).getD [] ++ (cs.map (fun c => (alookup c d).getD [])).flatten := by
    intro cs
    induction cs with
    | nil => simp
    | cons c rest ih =>
      intro acc hnd
      simp only [List.foldl_cons, List.map_cons, List.flatten]
      rw [ih _ (fun x hx => hnd x (List.mem_cons_of_mem _ hx))]
      rw [alookup_multiResultAdd c (hnd c (List.mem_cons_self _ _)) acc d]
      simp [List.append_assoc]
  have := main children [] h
  simpa [alookup] using this

/-- C6 witness: two child drivers that both report fingerprint `[1]` for
domain `d`; the merged view holds the fingerprint twice. -/
theorem C6_multiFingerprints_concat_witness :
    (alookup (multiFingerprints [[("d", [[1]])], [("d", [[1]])]]) "d").getD [] =
      ([[("d", [[1]])], [("d", [[1]])]].map
        (fun c => (alookup c "d").getD [])).flatten :=
  C6_multiFingerprints_concat [[("d", [[1]])], [("d", [[1]])]] (by decide) "d"

/-- C6 counterexample: with two children both returning fingerprint `[1]`
for domain `d`, the merged map holds `[1]` twice under `d` — not at most
once as claimed. -/
theorem C6_counterexample :
    (alookup (multiFingerprints [[("d", [[1]])], [("d", [[1]])]]) "d").getD [] = [[1], [1]] ∧
      ((alookup (multiFingerprints [[("d", [[1]])], [("d", [[1]])]]) "d").getD []).count [1] = 2 := by
  decide

theorem countQ_append_tau (F : Fp) (tr : List RunLabel) :
    countQ F (tr ++ [.tau]) = countQ F tr := by
  simp [countQ, List.countP_append, List.countP_cons]

theorem countQT_append_tau (F : Fp) (tr : List RunLabel) :
    countQT F (tr ++ [.tau]) = countQT F tr := by
  simp [countQT, List.countP_append, List.countP_cons]

theorem countQ_append_query (F fp : Fp) (ok : Bool) (tr : List RunLabel) :
    countQ F (tr ++ [.queryCall fp ok]) = countQ F tr + (if fp = F then 1 else 0) := by
  by_cases h : fp = F
  · simp [countQ, List.countP_append, List.countP_cons, h]
  · simp [countQ, List.countP_append, List.countP_cons, h]

theorem countQT_append_query (F fp : Fp) (ok : Bool) (tr : List RunLabel) :
    countQT F (tr ++ [.queryCall fp ok]) =
      countQT F tr + (if fp = F ∧ ok = true then 1 else 0) := by
  by_cases h : fp = F
  · cases ok <;> simp [countQT, List.countP_append, List.countP_cons, h]
  · cases ok <;> simp [countQT, List.countP_append, List.countP_cons, h]

theorem countQ_eq_countQT_add_countQF (F : Fp) (tr : List RunLabel) :
    countQ F tr = countQT F tr + countQF F tr := by
  induction tr with
  | nil => rfl
  | cons l rest ih =>
    simp only [countQ, countQT, countQF, List.countP_cons] at *
    cases l with
    | tau => simpa using ih
    | queryCall fp ok =>
      by_cases h : (fp == F) = true
      · cases ok <;> simp [h] <;> omega
      · simp only [Bool.not_eq_true] at h
        simp [h]
        omega

theorem countP_middle (p : CertTask → Bool) (pre post : List CertTask) (t : CertTask) :
    (pre ++ t :: post).countP p =
      pre.countP p + post.countP p + (if p t then 1 else 0) := by
  simp [List.countP_append, List.countP_cons]
  omega

theorem midcount_eq (fp0 : Fp) (p : Pc) :
    (if fp0 = fp0 ∧ p = p then 1 else 0) = 1 := if_pos ⟨rfl, rfl⟩

theorem midcount_ne_pc (fp0 F : Fp) (p1 p2 : Pc) (h : ¬ p1 = p2) :
    (if fp0 = F ∧ p1 = p2 then 1 else 0) = 0 := if_neg (fun hh => h hh.2)

theorem midcount_ne_fp (fp0 F : Fp) (p1 p2 : Pc) (h : ¬ fp0 = F) :
    (if fp0 = F ∧ p1 = p2 then 1 else 0) = 0 := if_neg (fun hh => h hh.1)

theorem midcount_true_eq (fp0 : Fp) :
    (if fp0 = fp0 ∧ True then 1 else 0) = 1 := if_pos ⟨rfl, trivial⟩

theorem midcount_true_ne (fp0 F : Fp) (h : ¬ fp0 = F) :
    (if fp0 = F ∧ True then 1 else 0) = 0 := if_neg (fun hh => h hh.1)

theorem runInv_step {s : RunState} {l : RunLabel} {s' : RunState} (hs : Step s l s')
    (F : Fp) (tr : List RunLabel) (hinv : RunInv F s tr) : RunInv F s' (tr ++ [l]) := by
  obtain ⟨hA, hB, hC⟩ := hinv
  cases hs with
  | dispatchStep proc g e pre post d0 fp0 ans0 sans0 =>
    unfold RunInv nQuery nAdd at *
    simp only [countQ_append_tau, countQT_append_tau, countP_middle, decide_eq_true_eq] at *
    rw [midcount_ne_pc fp0 F Pc.dispatch Pc.query (by decide)] at hA
    rw [midcount_ne_pc fp0 F Pc.dispatch Pc.addCert (by decide)] at hB
    by_cases hg : (alookup g fp0).isSome = true
    · refine ⟨?_, ?_, hC⟩
      · rw [if_pos hg, midcount_ne_pc fp0 F Pc.edgeCheck Pc.query (by decide)]
        omega
      · rw [if_pos hg, midcount_ne_pc fp0 F Pc.edgeCheck Pc.addCert (by decide)]
        omega
    · refine ⟨?_, ?_, hC⟩
      · rw [if_neg hg, midcount_ne_pc fp0 F Pc.acquire Pc.query (by decide)]
        omega
      · rw [if_neg hg, midcount_ne_pc fp0 F Pc.acquire Pc.addCert (by decide)]
        omega
  | acquireHit proc g e pre post d0 fp0 ans0 sans0 hmem =>
    unfold RunInv nQuery nAdd at *
    simp only [countQ_append_tau, countQT_append_tau, countP_middle, decide_eq_true_eq] at *
    rw [midcount_ne_pc fp0 F Pc.acquire Pc.query (by decide)] at hA
    rw [midcount_ne_pc fp0 F Pc.acquire Pc.addCert (by decide)] at hB
    refine ⟨?_, ?_, hC⟩
    · rw [midcount_ne_pc fp0 F Pc.edgeCheck Pc.query (by decide)]
      omega
    · rw [midcount_ne_pc fp0 F Pc.edgeCheck Pc.addCert (by decide)]
      omega
  | acquireWin proc g e pre post d0 fp0 ans0 sans0 hmem =>
    unfold RunInv nQuery nAdd at *
    simp only [countQ_append_tau, countQT_append_tau, countP_middle, decide_eq_true_eq] at *
    rw [midcount_ne_pc fp0 F Pc.acquire Pc.query (by decide)] at hA
    rw [midcount_ne_pc fp0 F Pc.acquire Pc.addCert (by decide)] at hB
    by_cases hF : fp0 = F
    · subst hF
      rw [if_neg hmem] at hA
      refine ⟨?_, ?_, hC⟩
      · rw [midcount_true_eq fp0]
        rw [if_pos (List.mem_cons_self fp0 proc)]
        omega
      · rw [midcount_ne_pc fp0 fp0 Pc.query Pc.addCert (by decide)]
        omega
    · refine ⟨?_, ?_, hC⟩
      · rw [midcount_true_ne fp0 F hF]
        by_cases hFp : F ∈ proc
        · rw [if_pos (List.mem_cons_of_mem fp0 hFp)]
          rw [if_pos hFp] at hA
          omega
        · have hnc : ¬ (F ∈ fp0 :: proc) := by
            intro hc
            rcases List.mem_cons.mp hc with h1 | h1
            · exact hF h1.symm
            · exact hFp h1
          rw [if_neg hnc]
          rw [if_neg hFp] at hA
          omega
      · rw [midcount_ne_fp fp0 F Pc.query Pc.addCert hF]
        omega
  | queryStep proc g e pre post d0 fp0 ans0 sans0 =>
    unfold RunInv nQuery nAdd at *
    simp only [countQ_append_query, countQT_append_query, countP_middle,
      decide_eq_true_eq] at *
    by_cases hF : fp0 = F
    · subst hF
      rw [midcount_true_eq fp0] at hA
      rw [midcount_ne_pc fp0 fp0 Pc.query Pc.addCert (by decide)] at hB
      cases ans0 with
      | true =>
        refine ⟨?_, ?_, ?_⟩
        · rw [if_pos rfl, if_pos (rfl : (true : Bool) = true),
            midcount_ne_pc fp0 fp0 Pc.addCert Pc.query (by decide)]
          omega
        · have hqt2 : fp0 = fp0 ∧ (true : Bool) = true := ⟨rfl, rfl⟩
          rw [if_pos (rfl : (true : Bool) = true),
            midcount_eq fp0 Pc.addCert, if_pos hqt2]
          omega
        · intro hE
          have hqt2 : fp0 = fp0 ∧ (true : Bool) = true := ⟨rfl, rfl⟩
          rw [if_pos hqt2]
          omega
      | false =>
        have hff : ¬ ((false : Bool) = true) := by decide
        have hqt : ¬ (fp0 = fp0 ∧ (false : Bool) = true) := fun hh => hff hh.2
        refine ⟨?_, ?_, ?_⟩
        · rw [if_pos rfl, if_neg hff,
            midcount_ne_pc fp0 fp0 Pc.edgeCheck Pc.query (by decide)]
          omega
        · rw [if_neg hff, midcount_ne_pc fp0 fp0 Pc.edgeCheck Pc.addCert (by decide),
            if_neg hqt]
          omega
        · intro hE
          have h1 := hC hE
          rw [if_neg hqt]
          omega
    · rw [midcount_true_ne fp0 F hF] at hA
      rw [midcount_ne_fp fp0 F Pc.query Pc.addCert hF] at hB
      have hqt : ¬ (fp0 = F ∧ ans0 = true) := fun hh => hF hh.1
      refine ⟨?_, ?_, ?_⟩
      · rw [if_neg hF]
        have hmid : ¬ (fp0 = F ∧
            (if ans0 = true then Pc.addCert else Pc.edgeCheck) = Pc.query) :=
          fun hh => hF hh.1
        rw [if_neg hmid]
        omega
      · rw [if_neg hqt]
        have hmid : ¬ (fp0 = F ∧
            (if ans0 = true then Pc.addCert else Pc.edgeCheck) = Pc.addCert) :=
          fun hh => hF hh.1
        rw [if_neg hmid]
        omega
      · intro hE
        have h1 := hC hE
        rw [if_neg hqt]
        omega
  | addCertStep proc g e pre post d0 fp0 ans0 sans0 =>
    unfold RunInv nQuery nAdd at *
    simp only [countQ_append_tau, countQT_append_tau, countP_middle, decide_eq_true_eq] at *
    by_cases hF : fp0 = F
    · subst hF
      rw [midcount_ne_pc fp0 fp0 Pc.addCert Pc.query (by decide)] at hA
      rw [midcount_true_eq fp0] at hB
      refine ⟨?_, ?_, hC⟩
      · rw [midcount_ne_pc fp0 fp0 Pc.edgeCheck Pc.query (by decide)]
        omega
      · rw [midcount_ne_pc fp0 fp0 Pc.edgeCheck Pc.addCert (by decide)]
        rw [alookup_aset_self]
        have hs : ((some (⟨fp0, sans0, []⟩ : CertNode)).isSome = true) := rfl
        rw [if_pos hs]
        omega
    · rw [midcount_ne_pc fp0 F Pc.addCert Pc.query (by decide)] at hA
      rw [midcount_true_ne fp0 F hF] at hB
      refine ⟨?_, ?_, hC⟩
      · rw [midcount_ne_pc fp0 F Pc.edgeCheck Pc.query (by decide)]
        omega
      · rw [midcount_ne_pc fp0 F Pc.edgeCheck Pc.addCert (by decide)]
        rw [alookup_aset_ne g fp0 F ⟨fp0, sans0, []⟩ (Ne.symm hF)]
        omega
  | edgeStep proc g e pre post d0 fp0 ans0 sans0 =>
    unfold RunInv nQuery nAdd at *
    simp only [countQ_append_tau, countQT_append_tau, countP_middle, decide_eq_true_eq] at *
    rw [midcount_ne_pc fp0 F Pc.edgeCheck Pc.query (by decide)] at hA
    rw [midcount_ne_pc fp0 F Pc.edgeCheck Pc.addCert (by decide)] at hB
    refine ⟨?_, ?_, ?_⟩
    · rw [midcount_ne_pc fp0 F Pc.done Pc.query (by decide)]
      omega
    · rw [midcount_ne_pc fp0 F Pc.done Pc.addCert (by decide)]
      omega
    · by_cases hg : (alookup g fp0).isSome = true
      · rw [if_pos hg]
        rintro ⟨d, hd⟩
        rcases List.mem_cons.mp hd with h1 | h1
        · injection h1 with h1a h1b
          subst h1b
          rw [if_pos hg] at hB
          omega
        · exact hC ⟨d, h1⟩
      · rw [if_neg hg]
        exact hC

theorem runInv_reach {s0 : RunState} {tr : List RunLabel} {s : RunState}
    (hr : Reach s0 tr s) (F : Fp) (hinit : Init s0) : RunInv F s tr := by
  induction hr with
  | refl =>
    obtain ⟨hp, hg, he, ht⟩ := hinit
    have hn : nQuery F s0 = 0 := by
      unfold nQuery
      rw [List.countP_eq_zero]
      intro t htm
      simp [ht t htm]
    have hn2 : nAdd F s0 = 0 := by
      unfold nAdd
      rw [List.countP_eq_zero]
      intro t htm
      simp [ht t htm]
    refine ⟨?_, ?_, ?_⟩
    · rw [hp, hn]
      simp [countQ]
    · rw [hg, hn2]
      simp [countQT, alookup]
    · rw [he]
      rintro ⟨d, hd⟩
      cases hd
  | step hr1 hstep ih =>
    exact runInv_step hstep F _ ih

/-- C2: across one run of the transition system, the driver's `QueryCert`
is called at most once per fingerprint; the mutex-guarded check-and-mark
of `processedCerts` enforces it. -/
theorem C2_queryCert_at_most_once (s0 : RunState) (tr : List RunLabel) (s : RunState) (F : Fp)
    (hinit : Init s0) (hreach : Reach s0 tr s) : countQ F tr ≤ 1 := by
  have h := (runInv_reach hreach F hinit).1
  by_cases hp : F ∈ s.processed
  · rw [if_pos hp] at h
    omega
  · rw [if_neg hp] at h
    omega

/-- C2 witness: the bound read off the empty run. -/
theorem C2_queryCert_at_most_once_witness : countQ [1] [] ≤ 1 :=
  C2_queryCert_at_most_once ⟨[], [], [], []⟩ [] ⟨[], [], [], []⟩ [1]
    ⟨rfl, rfl, rfl, by simp⟩ (Reach.refl _)

/-- C9: once the unique `QueryCert` attempt for a fingerprint fails, no
CertNode with that fingerprint is ever in the graph and no domain ever
records a cert edge to it (starting from the empty graph). -/
theorem C9_failed_query_never_added (s0 : RunState) (tr : List RunLabel) (s : RunState) (F : Fp)
    (hinit : Init s0) (hreach : Reach s0 tr s)
    (hfail : RunLabel.queryCall F false ∈ tr) :
    alookup s.graphCerts F = none ∧ ∀ d, (d, F) ∉ s.edges := by
  obtain ⟨h1, h2, h3⟩ := runInv_reach hreach F hinit
  have hq : countQ F tr ≤ 1 := by
    by_cases hp : F ∈ s.processed
    · rw [if_pos hp] at h1
      omega
    · rw [if_neg hp] at h1
      omega
  have hqf : 0 < countQF F tr := by
    unfold countQF
    exact List.countP_pos_iff.mpr ⟨_, hfail, by simp⟩
  have hsum := countQ_eq_countQT_add_countQF F tr
  have hqt : countQT F tr = 0 := by omega
  constructor
  · rw [hqt] at h2
    cases halt : alookup s.graphCerts F with
    | none => rfl
    | some v =>
      rw [halt] at h2
      simp at h2
  · intro d hd
    have := h3 ⟨d, hd⟩
    omega

/-- C9 witness: a one-task run whose `QueryCert` fails; afterwards the
graph has no CertNode for the fingerprint and no edge mentions it. -/
theorem C9_failed_query_never_added_witness :
    alookup (RunState.mk [[1]] [] [] [⟨"d", [1], false, [], Pc.done⟩]).graphCerts [1] = none ∧
      ∀ d, (d, [1]) ∉ (RunState.mk [[1]] [] [] [⟨"d", [1], false, [], Pc.done⟩]).edges := by
  have st1 := Step.dispatchStep [] [] [] [] [] "d" [1] false []
  have st2 := Step.acquireWin [] [] [] [] [] "d" [1] false [] (by simp)
  have st3 := Step.queryStep [[1]] [] [] [] [] "d" [1] false []
  have st4 := Step.edgeStep [[1]] [] [] [] [] "d" [1] false []
  refine C9_failed_query_never_added
      ⟨[], [], [], [⟨"d", [1], false, [], Pc.dispatch⟩]⟩
      [RunLabel.tau, RunLabel.tau, RunLabel.queryCall [1] false, RunLabel.tau]
      ⟨[[1]], [], [], [⟨"d", [1], false, [], Pc.done⟩]⟩ [1]
      ⟨rfl, rfl, rfl, ?_⟩ ?_ (by decide)
  · intro t htm
    simp at htm
    rw [htm]
  · exact Reach.step (Reach.step (Reach.step (Reach.step (Reach.refl _) st1) st2) st3) st4

end Certgraph

